import Mathlib

/-!
Verification of the cli-tracker-rs history parser and statistics engine.

The definitions below are a shallow embedding of the Rust sources:
  src/history.rs   (HistoryEntry, parse_history_line, parse_cli_stats_line,
                    is_valid_directory, get_history_entries)
  src/stats.rs     (week-window filter, frequency ranking, usage trend)
  src/interactive.rs (per-command hourly peak-times computation)

Machine integers are modelled as Nat/Int with explicit range checks where the
source performs fallible parsing (Rust i64::from_str).  Strings are Lean
strings; the Rust splitting primitives (split, splitn, trim, starts_with,
strip_prefix, contains) are re-implemented below over the character list so
their behaviour matches the Rust standard library on the inputs at hand.
-/

/-- Is the list p a prefix of l (Rust slice-pattern prefix test). -/
def isPrefixList : List Char → List Char → Bool
  | [], _ => true
  | _ :: _, [] => false
  | p :: ps, c :: cs => p == c && isPrefixList ps cs

/-- Rust str::starts_with for a string pattern. -/
def startsWithStr (p s : String) : Bool :=
  isPrefixList p.data s.data

/-- Rust str::starts_with for a single character pattern. -/
def startsWithChar (p : Char) (s : String) : Bool :=
  match s.data with
  | [] => false
  | c :: _ => c == p

/-- Rust str::strip_prefix: drop the prefix if present, otherwise None. -/
def stripPrefixStr (p s : String) : Option String :=
  if isPrefixList p.data s.data then some (String.mk (s.data.drop p.data.length))
  else none

/-- Helper for strContains: does pat occur as a contiguous sublist. -/
def containsSubList (pat : List Char) : List Char → Bool
  | [] => isPrefixList pat []
  | c :: cs => isPrefixList pat (c :: cs) || containsSubList pat cs

/-- Rust str::contains for a string pattern (substring search). -/
def strContains (s pat : String) : Bool :=
  containsSubList pat.data s.data

/-- Rust str::trim: remove whitespace from both ends of a character list. -/
def trimChars (cs : List Char) : List Char :=
  ((cs.dropWhile Char.isWhitespace).reverse.dropWhile Char.isWhitespace).reverse

/-- Rust str::trim on strings. -/
def strTrim (s : String) : String :=
  String.mk (trimChars s.data)

/-- Rust str::split on a single character: all pieces, separators removed.
The accumulator holds the current piece reversed. -/
def splitCharGo (sep : Char) (acc : List Char) : List Char → List String
  | [] => [String.mk acc.reverse]
  | c :: cs =>
    if c == sep then String.mk acc.reverse :: splitCharGo sep [] cs
    else splitCharGo sep (c :: acc) cs

/-- Rust str::split on a single character. -/
def splitChar (sep : Char) (s : String) : List String :=
  splitCharGo sep [] s.data

/-- Rust str::splitn worker: k is the number of splits still allowed. -/
def splitnCharGo (sep : Char) : Nat → List Char → List Char → List String
  | _, acc, [] => [String.mk acc.reverse]
  | 0, acc, rest => [String.mk (acc.reverse ++ rest)]
  | Nat.succ k, acc, c :: cs =>
    if c == sep then String.mk acc.reverse :: splitnCharGo sep k [] cs
    else splitnCharGo sep (Nat.succ k) (c :: acc) cs

/-- Rust str::splitn(n, sep): at most n pieces, the last piece keeps any
remaining separators. -/
def splitnChar (n : Nat) (sep : Char) (s : String) : List String :=
  splitnCharGo sep (n - 1) [] s.data

/-- Digit-string to Nat: all characters must be ASCII digits and there must be
at least one of them (Rust integer parsing after the optional sign). -/
def parseDigits : List Char → Option Nat
  | [] => none
  | cs =>
    if cs.all Char.isDigit then
      some (cs.foldl (fun acc c => acc * 10 + (c.toNat - 48)) 0)
    else none

/-- Rust str::parse::<i64>: optional sign, one or more ASCII digits, and the
value must fit in a signed 64-bit integer. -/
def parseI64 (s : String) : Option Int :=
  match s.data with
  | '+' :: rest =>
    (parseDigits rest).bind fun n =>
      if n ≤ 9223372036854775807 then some (n : Int) else none
  | '-' :: rest =>
    (parseDigits rest).bind fun n =>
      if n ≤ 9223372036854775808 then some (-(n : Int)) else none
  | cs =>
    (parseDigits cs).bind fun n =>
      if n ≤ 9223372036854775807 then some (n : Int) else none

/-- src/history.rs lines 9-16: one normalized command execution record. -/
structure HistoryEntry where
  timestamp : Int
  command : String
  directory : Option String
  duration : Option Int
  exit_code : Option Int
deriving Repr, DecidableEq

/-- src/history.rs lines 189-208: a directory candidate is valid iff it is
non-empty, starts with a slash or a tilde, and contains neither a URL scheme
separator nor the substring for the github host. -/
def is_valid_directory (path : String) : Bool :=
  if path = "" then false
  else
    if startsWithChar '/' path || startsWithChar '~' path then
      if strContains path "://" || strContains path "github.com" then false
      else true
    else false

/-- src/history.rs lines 28-64: parse one line of the zsh history file.
Lines with the extended-history prefix carry a timestamp; any other non-blank
line becomes a plain entry with timestamp 0. -/
def parse_history_line (line : String) : Option HistoryEntry :=
  if startsWithStr ": " line then
    let parts := splitnChar 3 ';' line
    if parts.length < 2 then none
    else
      match stripPrefixStr ": " (parts.getD 0 "") with
      | none => none
      | some ts_raw =>
        match parseI64 ((splitnChar 2 ':' (strTrim ts_raw)).getD 0 "") with
        | none => none
        | some timestamp =>
          let command := strTrim (parts.getD 1 "")
          if command ≠ "" then
            some ⟨timestamp, command, none, none, none⟩
          else none
  else
    let command := strTrim line
    if command ≠ "" then some ⟨0, command, none, none, none⟩
    else none

/-- src/history.rs lines 133-186: the extended-history and plain-fallback
tiers of parse_cli_stats_line (reached when the earlier tiers fell through).
In the extended-history tier a missing semicolon or an unparsable timestamp
aborts the whole line; an empty command falls to the final None. -/
def pcslZshPlain (line : String) : Option HistoryEntry :=
  if startsWithStr ": " line then
    match stripPrefixStr ": " line with
    | none => none
    | some timestamp_part =>
      let parts := splitnChar 2 ';' timestamp_part
      if parts.length < 2 then none
      else
        match parseI64 ((splitnChar 2 ':' (parts.getD 0 "")).getD 0 "") with
        | none => none
        | some timestamp =>
          let cmd_dir := splitnChar 2 ':' (parts.getD 1 "")
          let command := cmd_dir.getD 0 ""
          let directory :=
            if cmd_dir.length > 1 then
              if is_valid_directory (strTrim (cmd_dir.getD 1 "")) then
                some (strTrim (cmd_dir.getD 1 ""))
              else none
            else none
          if command ≠ "" then
            some ⟨timestamp, command, directory, none, none⟩
          else none
  else
    let command := strTrim line
    if command ≠ "" then some ⟨0, command, none, none, none⟩
    else none

/-- src/history.rs lines 98-131: the colon-delimited tier of
parse_cli_stats_line.  The line is split at the first two colons only
(Rust splitn(3, ':')): piece 0 must be all digits, the final piece is the
directory candidate, and the pieces strictly between are rejoined as the
command.  An unparsable all-digit timestamp aborts the whole line; any other
mismatch falls through to the later tiers. -/
def pcslColon (line : String) : Option HistoryEntry :=
  if startsWithStr ": " line then pcslZshPlain line
  else
    let parts := splitnChar 3 ':' line
    if parts.length ≥ 3 then
      if (parts.getD 0 "").data.all (fun c => c.isDigit) then
        match parseI64 (parts.getD 0 "") with
        | none => none
        | some timestamp =>
          let dir_str := strTrim (parts.getLastD "")
          let directory :=
            if is_valid_directory dir_str then some dir_str else none
          let command := strTrim (String.intercalate ":" ((parts.drop 1).dropLast))
          if command ≠ "" then
            some ⟨timestamp, command, directory, none, none⟩
          else pcslZshPlain line
      else pcslZshPlain line
    else pcslZshPlain line

/-- src/history.rs lines 66-186: parse one line of the stats log.  The
pipe-delimited tier runs first: exactly three pipe-separated fields, the
first must parse as i64 (failure aborts the whole line), the command is the
untrimmed middle field, and an empty command falls through to the
colon-delimited tier. -/
def parse_cli_stats_line (line : String) : Option HistoryEntry :=
  let pipe_parts := splitChar '|' line
  if pipe_parts.length = 3 then
    match parseI64 (pipe_parts.getD 0 "") with
    | none => none
    | some timestamp =>
      let command := pipe_parts.getD 1 ""
      let dir_str := strTrim (pipe_parts.getD 2 "")
      let directory :=
        if is_valid_directory dir_str then some dir_str else none
      if command ≠ "" then
        some ⟨timestamp, command, directory, none, none⟩
      else pcslColon line
  else pcslColon line

/-- src/history.rs lines 226-237: the zsh-history fallback of
get_history_entries.  The file system is modelled as an optional list of
lines (none when the file cannot be opened). -/
def zshFallback (zshFile : Option (List String)) : Except String (List HistoryEntry) :=
  match zshFile with
  | some lines => Except.ok (lines.filterMap parse_history_line)
  | none => Except.error "Failed to open zsh history file"

/-- src/history.rs lines 210-238: read the stats log first; if it opens and
yields at least one parsed entry use it exclusively, otherwise fall back to
the zsh history file, whose open failure is the only fatal error. -/
def get_history_entries (statsFile zshFile : Option (List String)) :
    Except String (List HistoryEntry) :=
  match statsFile with
  | some lines =>
    let entries := lines.filterMap parse_cli_stats_line
    if entries ≠ [] then Except.ok entries
    else zshFallback zshFile
  | none => zshFallback zshFile

/-- src/stats.rs lines 160-175: the first second of the target week.
mondayStart is the timestamp of Monday 00:00:00 local time of the current
week (chrono local midnight minus num_days_from_monday exact days, under a
fixed-offset local timezone); w is the non-negative week offset, and
chrono Duration::days(7 * w) is exactly 604800 * w seconds. -/
def weekWindowStart (mondayStart : Int) (w : Nat) : Int :=
  mondayStart - 604800 * w

/-- src/stats.rs lines 173-175 and 189-192: the window test applied to each
entry timestamp; the end of the week is the start plus seven days minus one
second. -/
def inWeekWindow (mondayStart : Int) (w : Nat) (ts : Int) : Bool :=
  weekWindowStart mondayStart w ≤ ts &&
    ts ≤ weekWindowStart mondayStart w + 604799

/-- src/stats.rs lines 186-193: the entries shown in the week view. -/
def weekEntries (mondayStart : Int) (w : Nat) (entries : List HistoryEntry) :
    List HistoryEntry :=
  entries.filter (fun e => inWeekWindow mondayStart w e.timestamp)

/-- src/stats.rs lines 527-532: the per-command occurrence counts.  The Rust
HashMap yields its key set in an unspecified iteration order; that order is
the explicit parameter order here, and each key is paired with the number of
entries whose command equals it. -/
def commandCounts (entries : List HistoryEntry) (order : List String) :
    List (String × Nat) :=
  order.map (fun c => (c, (entries.filter (fun e => e.command = c)).length))

/-- A legitimate HashMap iteration order: each distinct command of the entry
sequence exactly once, in some order. -/
def validOrder (entries : List HistoryEntry) (order : List String) : Prop :=
  order.Nodup ∧
    (∀ c ∈ order, c ∈ entries.map (fun e => e.command)) ∧
    (∀ c ∈ entries.map (fun e => e.command), c ∈ order)

instance (entries : List HistoryEntry) (order : List String) :
    Decidable (validOrder entries order) := by
  unfold validOrder; infer_instance

/-- Stable descending insertion by count: the new pair goes before the first
existing pair of strictly smaller count, hence after every earlier pair of
greater or equal count. -/
def insertDesc (x : String × Nat) : List (String × Nat) → List (String × Nat)
  | [] => [x]
  | y :: ys => if x.2 < y.2 then y :: insertDesc x ys else x :: y :: ys

/-- Stable sort descending by count.  Rust Vec::sort_by with comparator
b.1.cmp(&a.1) is a stable descending-by-count sort, and a stable sort's
output is determined by the input order and the comparator, so this stable
insertion sort computes the same list (src/stats.rs lines 535-536). -/
def sortByCountDesc : List (String × Nat) → List (String × Nat)
  | [] => []
  | x :: xs => insertDesc x (sortByCountDesc xs)

/-- src/stats.rs lines 527-536: the frequency ranking displayed in the
Most Used Commands box, as a function of the entries and of the HashMap
iteration order. -/
def rankCommands (entries : List HistoryEntry) (order : List String) :
    List (String × Nat) :=
  sortByCountDesc (commandCounts entries order)

/-- src/interactive.rs lines 260-268: enumerate the hour buckets and keep
the indices whose count strictly exceeds the threshold. -/
def peakHoursAux (threshold : Nat) (i : Nat) : List Nat → List Nat
  | [] => []
  | c :: cs =>
    if threshold < c then i :: peakHoursAux threshold (i + 1) cs
    else peakHoursAux threshold (i + 1) cs

/-- src/interactive.rs lines 228 and 260-268: the Peak times hour list.
max_count is iter().max() with unwrap_or(1), and the threshold is
2 * max_count / 3 with truncating integer division. -/
def peakHours (hour_counts : List Nat) : List Nat :=
  let max_count := (hour_counts.max?).getD 1
  peakHoursAux (2 * max_count / 3) 0 hour_counts

/-- src/stats.rs lines 409-426: the lifetime-view usage trend.  The first
half is the first len/2 entries, the second half is the rest, and the
120 percent / 80 percent comparisons use truncating integer division. -/
def usageTrendLifetime (active_entries : List HistoryEntry) : String :=
  if 10 < active_entries.length then
    let halfway := active_entries.length / 2
    let old_half_count := (active_entries.take halfway).length
    let new_half_count := active_entries.length - old_half_count
    if old_half_count * 12 / 10 < new_half_count then "↑ Increasing"
    else if new_half_count < old_half_count * 8 / 10 then "↓ Decreasing"
    else "→ Steady"
  else "N/A"

theorem trimChars_eq_rdrop (cs : List Char) :
    trimChars cs =
      List.rdropWhile Char.isWhitespace (List.dropWhile Char.isWhitespace cs) := rfl

theorem trimChars_idem (cs : List Char) : trimChars (trimChars cs) = trimChars cs := by
  rw [trimChars_eq_rdrop, trimChars_eq_rdrop]
  cases hT : List.rdropWhile Char.isWhitespace (List.dropWhile Char.isWhitespace cs) with
  | nil => simp
  | cons x xs =>
    obtain ⟨r, hr⟩ :=
      List.rdropWhile_prefix Char.isWhitespace (List.dropWhile Char.isWhitespace cs)
    rw [hT] at hr
    have hne : List.dropWhile Char.isWhitespace cs ≠ [] := by
      rw [← hr]; simp
    have h2 : Char.isWhitespace ((List.dropWhile Char.isWhitespace cs).head hne) = false :=
      List.head_dropWhile_not Char.isWhitespace cs hne
    have hx : Char.isWhitespace x = false := by
      have h1 : (List.dropWhile Char.isWhitespace cs).head? = some x := by
        rw [← hr]; rfl
      rw [List.head?_eq_head hne] at h1
      rw [Option.some.inj h1] at h2
      exact h2
    have hself : List.dropWhile Char.isWhitespace (x :: xs) = x :: xs := by
      rw [List.dropWhile_cons]
      simp [hx]
    rw [hself, ← hT, List.rdropWhile_idempotent]

theorem strTrim_idem (s : String) : strTrim (strTrim s) = strTrim s :=
  congrArg String.mk (trimChars_idem s.data)

theorem splitCharGo_no_sep (sep : Char) :
    ∀ (cs acc : List Char), (∀ c ∈ cs, c ≠ sep) →
      splitCharGo sep acc cs = [String.mk (acc.reverse ++ cs)]
  | [], acc, _ => by simp [splitCharGo]
  | c :: cs, acc, h => by
    have hc : c ≠ sep := h c (List.mem_cons_self c cs)
    rw [splitCharGo, if_neg (by simpa using hc)]
    rw [splitCharGo_no_sep sep cs (c :: acc) (fun x hx => h x (List.mem_cons_of_mem c hx))]
    simp

theorem splitCharGo_sep_append (sep : Char) :
    ∀ (s₁ acc rest : List Char), (∀ c ∈ s₁, c ≠ sep) →
      splitCharGo sep acc (s₁ ++ sep :: rest) =
        String.mk (acc.reverse ++ s₁) :: splitCharGo sep [] rest
  | [], acc, rest, _ => by simp [splitCharGo]
  | c :: cs, acc, rest, h => by
    have hc : c ≠ sep := h c (List.mem_cons_self c cs)
    rw [List.cons_append, splitCharGo, if_neg (by simpa using hc)]
    rw [splitCharGo_sep_append sep cs (c :: acc) rest
      (fun x hx => h x (List.mem_cons_of_mem c hx))]
    simp

theorem splitChar_three (a b c : String)
    (ha : ∀ ch ∈ a.data, ch ≠ '|') (hb : ∀ ch ∈ b.data, ch ≠ '|')
    (hc : ∀ ch ∈ c.data, ch ≠ '|') :
    splitChar '|' (a ++ "|" ++ b ++ "|" ++ c) = [a, b, c] := by
  unfold splitChar
  have hdata : (a ++ "|" ++ b ++ "|" ++ c).data =
      a.data ++ '|' :: (b.data ++ '|' :: c.data) := by
    simp [String.data_append]
  rw [hdata, splitCharGo_sep_append '|' a.data [] _ ha,
    splitCharGo_sep_append '|' b.data [] _ hb, splitCharGo_no_sep '|' c.data [] hc]
  simp

theorem pzp_command_ne (line : String) (e : HistoryEntry)
    (h : pcslZshPlain line = some e) : e.command ≠ "" := by
  simp only [pcslZshPlain] at h
  repeat' split at h
  all_goals first
    | exact Option.noConfusion h
    | (rw [← Option.some.inj h]; assumption)

theorem pcolon_command_ne (line : String) (e : HistoryEntry)
    (h : pcslColon line = some e) : e.command ≠ "" := by
  simp only [pcslColon] at h
  repeat' split at h
  all_goals first
    | exact Option.noConfusion h
    | exact pzp_command_ne line e h
    | (rw [← Option.some.inj h]; assumption)

theorem pcsl_command_ne (line : String) (e : HistoryEntry)
    (h : parse_cli_stats_line line = some e) : e.command ≠ "" := by
  simp only [parse_cli_stats_line] at h
  repeat' split at h
  all_goals first
    | exact Option.noConfusion h
    | exact pcolon_command_ne line e h
    | (rw [← Option.some.inj h]; assumption)

theorem phl_command_trim_ne (line : String) (e : HistoryEntry)
    (h : parse_history_line line = some e) : strTrim e.command ≠ "" := by
  simp only [parse_history_line] at h
  repeat' split at h
  all_goals first
    | exact Option.noConfusion h
    | (rw [← Option.some.inj h]; simp only [strTrim_idem]; assumption)

theorem pzp_directory_valid (line : String) (e : HistoryEntry) (d : String)
    (h : pcslZshPlain line = some e) (hd : e.directory = some d) :
    is_valid_directory d = true := by
  simp only [pcslZshPlain] at h
  repeat' split at h
  all_goals first
    | exact Option.noConfusion h
    | (obtain rfl := (Option.some.inj h).symm
       first
        | exact Option.noConfusion hd
        | (rw [← Option.some.inj hd]; assumption))

theorem pcolon_directory_valid (line : String) (e : HistoryEntry) (d : String)
    (h : pcslColon line = some e) (hd : e.directory = some d) :
    is_valid_directory d = true := by
  simp only [pcslColon] at h
  repeat' split at h
  all_goals first
    | exact Option.noConfusion h
    | exact pzp_directory_valid line e d h hd
    | (obtain rfl := (Option.some.inj h).symm
       first
        | exact Option.noConfusion hd
        | (rw [← Option.some.inj hd]; assumption))

theorem pcsl_directory_valid (line : String) (e : HistoryEntry) (d : String)
    (h : parse_cli_stats_line line = some e) (hd : e.directory = some d) :
    is_valid_directory d = true := by
  simp only [parse_cli_stats_line] at h
  repeat' split at h
  all_goals first
    | exact Option.noConfusion h
    | exact pcolon_directory_valid line e d h hd
    | (obtain rfl := (Option.some.inj h).symm
       first
        | exact Option.noConfusion hd
        | (rw [← Option.some.inj hd]; assumption))

theorem is_valid_directory_spec (d : String) :
    is_valid_directory d = true ↔
      d ≠ "" ∧ (startsWithChar '/' d = true ∨ startsWithChar '~' d = true) ∧
        strContains d "://" = false ∧ strContains d "github.com" = false := by
  simp only [is_valid_directory]
  split_ifs with h1 h2 h3
  · simp [h1]
  · constructor
    · intro hF; exact hF.elim
    · rintro ⟨-, -, hc1, hc2⟩
      rcases (Bool.or_eq_true _ _).mp h3 with h | h
      · rw [h] at hc1; exact Bool.noConfusion hc1
      · rw [h] at hc2; exact Bool.noConfusion hc2
  · constructor
    · intro _
      refine ⟨h1, (Bool.or_eq_true _ _).mp h2, ?_, ?_⟩
      · cases hc : strContains d "://" with
        | false => rfl
        | true => exact absurd ((Bool.or_eq_true _ _).mpr (Or.inl hc)) h3
      · cases hc : strContains d "github.com" with
        | false => rfl
        | true => exact absurd ((Bool.or_eq_true _ _).mpr (Or.inr hc)) h3
    · intro _; rfl
  · constructor
    · intro hF; exact hF.elim
    · rintro ⟨-, hstart, -, -⟩
      exact absurd ((Bool.or_eq_true _ _).mpr hstart) h2

theorem mem_insertDesc (x y : String × Nat) (l : List (String × Nat)) :
    y ∈ insertDesc x l ↔ y = x ∨ y ∈ l := by
  induction l with
  | nil => simp [insertDesc]
  | cons z zs ih =>
    simp only [insertDesc]
    split
    · simp only [List.mem_cons, ih]
      tauto
    · simp [List.mem_cons]

theorem mem_sortByCountDesc (y : String × Nat) (l : List (String × Nat)) :
    y ∈ sortByCountDesc l ↔ y ∈ l := by
  induction l with
  | nil => simp [sortByCountDesc]
  | cons z zs ih => simp [sortByCountDesc, mem_insertDesc, ih]

theorem insertDesc_pairwise (x : String × Nat) (l : List (String × Nat))
    (h : l.Pairwise (fun a b => b.2 ≤ a.2)) :
    (insertDesc x l).Pairwise (fun a b => b.2 ≤ a.2) := by
  induction l with
  | nil => simp [insertDesc]
  | cons z zs ih =>
    rw [List.pairwise_cons] at h
    obtain ⟨hz, hzs⟩ := h
    simp only [insertDesc]
    split
    · rename_i hlt
      rw [List.pairwise_cons]
      refine ⟨?_, ih hzs⟩
      intro a ha
      rcases (mem_insertDesc x a zs).mp ha with rfl | ha
      · omega
      · exact hz a ha
    · rename_i hnlt
      rw [List.pairwise_cons]
      refine ⟨?_, List.pairwise_cons.mpr ⟨hz, hzs⟩⟩
      intro a ha
      rcases List.mem_cons.mp ha with rfl | ha
      · omega
      · have := hz a ha
        omega

theorem sortByCountDesc_pairwise (l : List (String × Nat)) :
    (sortByCountDesc l).Pairwise (fun a b => b.2 ≤ a.2) := by
  induction l with
  | nil => simp [sortByCountDesc]
  | cons z zs ih => exact insertDesc_pairwise z _ ih

theorem mem_peakHoursAux (t : Nat) (l : List Nat) : ∀ (i h : Nat),
    h ∈ peakHoursAux t i l ↔ ∃ j, j < l.length ∧ h = i + j ∧ t < l.getD j 0 := by
  induction l with
  | nil => intro i h; simp [peakHoursAux]
  | cons c cs ih =>
    intro i h
    simp only [peakHoursAux]
    by_cases htc : t < c
    · rw [if_pos htc]
      simp only [List.mem_cons, ih]
      constructor
      · rintro (rfl | ⟨j, hj, rfl, hgt⟩)
        · exact ⟨0, by simp, by omega, by simpa⟩
        · refine ⟨j + 1, ?_, by omega, by simpa using hgt⟩
          simp only [List.length_cons]
          omega
      · rintro ⟨j, hj, rfl, hgt⟩
        cases j with
        | zero => exact Or.inl (by omega)
        | succ j =>
          refine Or.inr ⟨j, ?_, by omega, by simpa using hgt⟩
          simp only [List.length_cons] at hj
          omega
    · rw [if_neg htc]
      rw [ih]
      constructor
      · rintro ⟨j, hj, rfl, hgt⟩
        refine ⟨j + 1, ?_, by omega, by simpa using hgt⟩
        simp only [List.length_cons]
        omega
      · rintro ⟨j, hj, rfl, hgt⟩
        cases j with
        | zero => exact absurd (by simpa using hgt) htc
        | succ j =>
          refine ⟨j, ?_, by omega, by simpa using hgt⟩
          simp only [List.length_cons] at hj
          omega

/-- C1 counterexample: the pipe-delimited line 1700|a && b|/dir yields a single
entry whose command is the whole segment a && b: no splitting on the token
of two ampersands is performed anywhere in the parser, so the claimed two
entries are not produced. -/
theorem compound_command_not_split :
    parse_cli_stats_line "1700|a && b|/dir" =
      some ⟨1700, "a && b", some "/dir", none, none⟩ := by decide

/-- C1 (amended): parsing performs no compound-command split.  A well-formed
pipe-delimited line yields exactly one entry whose command is the entire
middle field, even when that field contains the two-ampersand token, with the
line's timestamp and validated directory. -/
theorem pipe_line_keeps_compound_command (tstr cmd dir : String) (tv : Int)
    (h1 : parseI64 tstr = some tv)
    (h2 : ∀ ch ∈ tstr.data, ch ≠ '|') (h3 : ∀ ch ∈ cmd.data, ch ≠ '|')
    (h4 : ∀ ch ∈ dir.data, ch ≠ '|') (h5 : cmd ≠ "") :
    parse_cli_stats_line (tstr ++ "|" ++ cmd ++ "|" ++ dir) =
      some ⟨tv, cmd,
        if is_valid_directory (strTrim dir) then some (strTrim dir) else none,
        none, none⟩ := by
  have hsp := splitChar_three tstr cmd dir h2 h3 h4
  simp only [parse_cli_stats_line, hsp]
  simp [h1, h5]

theorem pipe_line_keeps_compound_command_witness :
    parse_cli_stats_line ("1700" ++ "|" ++ "a && b" ++ "|" ++ "/dir") =
      some ⟨1700, "a && b",
        if is_valid_directory (strTrim "/dir") then some (strTrim "/dir") else none,
        none, none⟩ :=
  pipe_line_keeps_compound_command "1700" "a && b" "/dir" 1700
    (by decide) (by decide) (by decide) (by decide) (by decide)

/-- C2 counterexample: on 1700:echo a:b:/tmp the code yields command echo a
and directory None, not the claimed command echo a:b with directory /tmp,
because the line is split at the first two colons only. -/
theorem colon_line_last_field_not_directory :
    parse_cli_stats_line "1700:echo a:b:/tmp" =
      some ⟨1700, "echo a", none, none, none⟩ := by decide

/-- C2 (amended): the colon tier splits the line at the first two colons only
(Rust splitn with limit 3 on the colon separator): the command is the single field between the
first two colons (trimmed) and everything after the second colon is the
directory candidate. -/
theorem colon_tier_splits_at_first_two_colons (line p0 p1 p2 : String) (tv : Int)
    (hnp : ∀ ch ∈ line.data, ch ≠ '|')
    (hpre : startsWithStr ": " line = false)
    (hsplit : splitnChar 3 ':' line = [p0, p1, p2])
    (hdig : (p0.data.all fun c => c.isDigit) = true)
    (hts : parseI64 p0 = some tv)
    (hcmd : strTrim p1 ≠ "") :
    parse_cli_stats_line line =
      some ⟨tv, strTrim p1,
        if is_valid_directory (strTrim p2) then some (strTrim p2) else none,
        none, none⟩ := by
  have hone : splitChar '|' line = [line] := by
    unfold splitChar
    rw [splitCharGo_no_sep '|' line.data [] hnp]
    simp
  simp only [parse_cli_stats_line, hone]
  rw [if_neg (by simp)]
  simp only [pcslColon, hpre]
  simp only [Bool.false_eq_true, if_false]
  rw [hsplit]
  simp only [List.length_cons, List.length_nil, ge_iff_le, List.getD_cons_zero, hdig, hts]
  rw [if_pos (by omega)]
  simp only [if_true]
  have hdrop : (List.drop 1 [p0, p1, p2]).dropLast = [p1] := rfl
  have hlast : [p0, p1, p2].getLastD "" = p2 := rfl
  rw [hdrop, hlast]
  have hint : (":".intercalate [p1]) = p1 := rfl
  rw [hint]
  rw [if_pos hcmd]

theorem colon_tier_splits_witness :
    parse_cli_stats_line "1700:cargo run:/tmp" =
      some ⟨1700, strTrim "cargo run",
        if is_valid_directory (strTrim "/tmp") then some (strTrim "/tmp") else none,
        none, none⟩ :=
  colon_tier_splits_at_first_two_colons "1700:cargo run:/tmp" "1700" "cargo run" "/tmp" 1700
    (by decide) (by decide) (by decide) (by decide) (by decide) (by decide)

/-- C3 counterexample: with the stats log readable but yielding zero parsed
entries and the zsh history unreadable, get_history_entries returns an error
even though one of the two files is readable. -/
theorem stats_readable_zsh_missing_errors :
    get_history_entries (some [""]) none =
      Except.error "Failed to open zsh history file" := rfl

/-- C3 (amended): get_history_entries succeeds iff the stats log is readable
and yields at least one parsed entry, or the zsh history file is readable;
equivalently it errors iff the zsh file is unreadable and the stats log is
unreadable or yields zero entries. -/
theorem history_source_ok_iff (statsFile zshFile : Option (List String)) :
    (∃ es, get_history_entries statsFile zshFile = Except.ok es) ↔
      ((∃ ls, statsFile = some ls ∧ ls.filterMap parse_cli_stats_line ≠ []) ∨
        zshFile ≠ none) := by
  constructor
  · rintro ⟨es, hes⟩
    cases statsFile with
    | none =>
      cases zshFile with
      | none => simp [get_history_entries, zshFallback] at hes
      | some zl => exact Or.inr (by simp)
    | some ls =>
      by_cases h : ls.filterMap parse_cli_stats_line = []
      · cases zshFile with
        | none => simp [get_history_entries, h, zshFallback] at hes
        | some zl => exact Or.inr (by simp)
      · exact Or.inl ⟨ls, rfl, h⟩
  · intro hr
    rcases hr with ⟨ls, rfl, hne⟩ | hz
    · exact ⟨ls.filterMap parse_cli_stats_line, by simp [get_history_entries, hne]⟩
    · cases zshFile with
      | none => exact absurd rfl hz
      | some zl =>
        cases statsFile with
        | none =>
          exact ⟨zl.filterMap parse_history_line, by simp [get_history_entries, zshFallback]⟩
        | some ls =>
          by_cases h : ls.filterMap parse_cli_stats_line = []
          · exact ⟨zl.filterMap parse_history_line,
              by simp [get_history_entries, h, zshFallback]⟩
          · exact ⟨ls.filterMap parse_cli_stats_line, by simp [get_history_entries, h]⟩

/-- C4 counterexample: two legitimate HashMap iteration orders over the same
two-entry sequence produce different frequency rankings, so tie order follows
the unspecified map order, not first-encountered order, and the output is not
a function of the entry sequence alone. -/
theorem ranking_tie_order_follows_map_order :
    validOrder [⟨1, "a", none, none, none⟩, ⟨2, "b", none, none, none⟩] ["b", "a"] ∧
      rankCommands [⟨1, "a", none, none, none⟩, ⟨2, "b", none, none, none⟩] ["b", "a"] =
        [("b", 1), ("a", 1)] ∧
      rankCommands [⟨1, "a", none, none, none⟩, ⟨2, "b", none, none, none⟩] ["a", "b"] =
        [("a", 1), ("b", 1)] := by
  refine ⟨by decide, by decide, by decide⟩

/-- C4 (amended): for any legitimate HashMap iteration order, the frequency
ranking groups entries by exact command string and stable-sorts descending by
count, and its pairs are exactly the distinct commands with their occurrence
counts; the relative order of tied commands, however, is inherited from the
unspecified map iteration order. -/
theorem ranking_sorted_and_counts (entries : List HistoryEntry) (order : List String)
    (h : validOrder entries order) :
    (rankCommands entries order).Pairwise (fun a b => b.2 ≤ a.2) ∧
      ∀ c n, ((c, n) ∈ rankCommands entries order ↔
        c ∈ entries.map (fun e => e.command) ∧
          n = (entries.filter (fun e => e.command = c)).length) := by
  obtain ⟨hnd, hsub1, hsub2⟩ := h
  constructor
  · exact sortByCountDesc_pairwise _
  · intro c n
    simp only [rankCommands]
    rw [mem_sortByCountDesc]
    simp only [commandCounts, List.mem_map] at hsub1 hsub2 ⊢
    constructor
    · rintro ⟨c', hc', heq⟩
      rw [Prod.mk.injEq] at heq
      obtain ⟨rfl, rfl⟩ := heq
      exact ⟨hsub1 c' hc', rfl⟩
    · rintro ⟨hc, rfl⟩
      exact ⟨c, hsub2 c hc, rfl⟩

theorem ranking_sorted_and_counts_witness :
    (rankCommands [⟨1, "a", none, none, none⟩] ["a"]).Pairwise (fun a b => b.2 ≤ a.2) :=
  (ranking_sorted_and_counts [⟨1, "a", none, none, none⟩] ["a"] (by decide)).1

/-- C5: a line with exactly three pipe-separated fields whose first field does
not parse as an i64 yields no entry at all: the whole line is dropped and the
parser does not fall through to the colon, extended-history or plain tiers. -/
theorem pipe_bad_timestamp_drops_line (line f0 f1 f2 : String)
    (hsplit : splitChar '|' line = [f0, f1, f2]) (hts : parseI64 f0 = none) :
    parse_cli_stats_line line = none := by
  simp only [parse_cli_stats_line, hsplit]
  simp [hts]

theorem pipe_bad_timestamp_drops_line_witness :
    parse_cli_stats_line "x|a|b" = none :=
  pipe_bad_timestamp_drops_line "x|a|b" "x" "a" "b" (by decide) (by decide)

/-- C6 counterexample: the pipe tier does not trim the command field, so the
line 1700| |/tmp produces an entry whose command is a single space, which is
whitespace-only. -/
theorem pipe_command_whitespace_only :
    parse_cli_stats_line "1700| |/tmp" = some ⟨1700, " ", some "/tmp", none, none⟩ ∧
      strTrim " " = "" := by
  exact ⟨by decide, by decide⟩

/-- C6 (amended): every entry produced by parse_history_line has a trimmed
command with at least one non-whitespace character, and every entry produced
by parse_cli_stats_line has a non-empty command; the pipe and extended-history
tiers of the latter do not trim, so their commands may be whitespace-only. -/
theorem parsed_command_nonempty (line : String) (e : HistoryEntry) :
    (parse_history_line line = some e → strTrim e.command ≠ "") ∧
      (parse_cli_stats_line line = some e → e.command ≠ "") :=
  ⟨phl_command_trim_ne line e, pcsl_command_ne line e⟩

theorem parsed_command_nonempty_witness :
    strTrim (HistoryEntry.command ⟨0, "ls", none, none, none⟩) ≠ "" :=
  (parsed_command_nonempty "ls" ⟨0, "ls", none, none, none⟩).1 (by decide)

/-- C7: whenever parse_cli_stats_line produces an entry whose directory field
is present, the directory is non-empty, starts with a slash or a tilde, and
contains neither the substring of a URL scheme separator nor the github host
substring, i.e. is_valid_directory holds of it. -/
theorem parsed_directory_is_valid (line : String) (e : HistoryEntry) (d : String)
    (h : parse_cli_stats_line line = some e) (hd : e.directory = some d) :
    d ≠ "" ∧ (startsWithChar '/' d = true ∨ startsWithChar '~' d = true) ∧
      strContains d "://" = false ∧ strContains d "github.com" = false ∧
      is_valid_directory d = true := by
  have hv := pcsl_directory_valid line e d h hd
  have hs := (is_valid_directory_spec d).mp hv
  exact ⟨hs.1, hs.2.1, hs.2.2.1, hs.2.2.2, hv⟩

theorem parsed_directory_is_valid_witness :
    ("/tmp" : String) ≠ "" ∧
      (startsWithChar '/' "/tmp" = true ∨ startsWithChar '~' "/tmp" = true) ∧
      strContains "/tmp" "://" = false ∧ strContains "/tmp" "github.com" = false ∧
      is_valid_directory "/tmp" = true :=
  parsed_directory_is_valid "1700|ls|/tmp" ⟨1700, "ls", some "/tmp", none, none⟩ "/tmp"
    (by decide) (by decide)

/-- C8 counterexample: for the week window whose target Monday precedes the
Unix epoch (current Monday at timestamp 345600 with offset 1), a timestamp of
exactly 0 lies inside the window and the entry is included in the windowed
view, contradicting the unconditional exclusion claimed for zero stamps. -/
theorem epoch_week_includes_zero_timestamp :
    inWeekWindow 345600 1 0 = true ∧
      weekEntries 345600 1 [⟨0, "ls", none, none, none⟩] =
        [⟨0, "ls", none, none, none⟩] := by
  exact ⟨by decide, by decide⟩

/-- C8 (amended): an entry is in the week view iff its timestamp lies between
the target Monday 00:00:00 and the following Sunday 23:59:59 inclusive; the
Monday instant itself is included and the prior Sunday 23:59:59 is excluded;
and entries with timestamp 0 are excluded provided the target Monday is after
the Unix epoch (for the week containing the epoch they are included). -/
theorem week_window_boundaries (mondayStart : Int) (w : Nat)
    (entries : List HistoryEntry) (e : HistoryEntry) :
    (e ∈ weekEntries mondayStart w entries ↔
      e ∈ entries ∧ weekWindowStart mondayStart w ≤ e.timestamp ∧
        e.timestamp ≤ weekWindowStart mondayStart w + 604799) ∧
    inWeekWindow mondayStart w (weekWindowStart mondayStart w) = true ∧
    inWeekWindow mondayStart w (weekWindowStart mondayStart w - 1) = false ∧
    (0 < weekWindowStart mondayStart w → inWeekWindow mondayStart w 0 = false) := by
  refine ⟨?_, ?_, ?_, ?_⟩
  · rw [weekEntries, List.mem_filter]
    simp [inWeekWindow]
  · simp [inWeekWindow]
  · rw [Bool.eq_false_iff]
    intro hcontra
    simp only [inWeekWindow, Bool.and_eq_true, decide_eq_true_eq] at hcontra
    omega
  · intro h
    rw [Bool.eq_false_iff]
    intro hcontra
    simp only [inWeekWindow, weekWindowStart, Bool.and_eq_true, decide_eq_true_eq] at hcontra
    simp only [weekWindowStart] at h
    omega

theorem week_window_boundaries_witness :
    inWeekWindow 345600 0 0 = false :=
  (week_window_boundaries 345600 0 [] ⟨0, "", none, none, none⟩).2.2.2 (by decide)

/-- C9: an hour is listed among the peak times iff its bucket count strictly
exceeds two thirds of the maximum bucket count computed with truncating
integer division, and with all 24 buckets equal to 1 the threshold truncates
to 0 so all 24 hours qualify. -/
theorem peak_hours_strict_two_thirds_threshold :
    (∀ (hour_counts : List Nat) (h : Nat),
      h ∈ peakHours hour_counts ↔
        h < hour_counts.length ∧
          2 * ((hour_counts.max?).getD 1) / 3 < hour_counts.getD h 0) ∧
      peakHours (List.replicate 24 1) = List.range 24 := by
  constructor
  · intro hc h
    simp only [peakHours]
    rw [mem_peakHoursAux]
    constructor
    · rintro ⟨j, hj, rfl, hgt⟩
      exact ⟨by simpa using hj, by simpa using hgt⟩
    · rintro ⟨hlt, hgt⟩
      exact ⟨h, hlt, by omega, hgt⟩
  · decide

/-- C10: in the lifetime view with more than 10 entries the usage trend is
always the steady arrow: the two halves differ by at most one entry, so
neither the 120 percent nor the 80 percent threshold can be crossed. -/
theorem lifetime_trend_always_steady (entries : List HistoryEntry)
    (h : 10 < entries.length) : usageTrendLifetime entries = "→ Steady" := by
  simp only [usageTrendLifetime, List.length_take]
  rw [if_pos h]
  rw [min_eq_left (Nat.div_le_self _ _)]
  rw [if_neg (by omega), if_neg (by omega)]

theorem lifetime_trend_always_steady_witness :
    usageTrendLifetime (List.replicate 11 ⟨0, "x", none, none, none⟩) = "→ Steady" :=
  lifetime_trend_always_steady _ (by decide)
